import Mathlib

/-!
Verification of the author/contributor name-parsing core of the
legacy-to-elements migration pipeline.

The development shallowly embeds the Python sources:
  * `lyterati_utils/name_parser.py`   (`Author`, `AuthorParser` with its
    `_pre_clean`, `_post_clean`, `parse_one`, `parse_many` methods, the
    ambiguity scoring, and tree unpacking), and
  * `lyterati_utils/elements_types.py` (`ElementsPersonList` with
    `check_name_matches`, `name_to_dict` and `parse_names`).

Strings are modelled as Lean `String` / `List Char`; the Unicode classes
used by the Python `regex` module (`\p{Lu}`, `str.upper`, `str.lower`,
`str.title`) are modelled on the ASCII fragment, which is the fragment the
vocabularies and the tests of the repository exercise.

The third-party Lark grammar engine (`Lark(...).parse`) is not code of this
repository; it is abstracted as a function `List Char → Except String PTree`
returning either a parse tree or the raw message of the
`UnexpectedCharacters` / `UnexpectedEOF` exception it raises.  Everything
downstream of that call (ambiguity resolution, tree unpacking, cleaning,
owner matching) is translated from the repository's code.
-/

/-! ## Character helpers (ASCII model of the Unicode operations used) -/

/-- ASCII model of the `\p{Lu}` character class used by `_pre_clean`. -/
def isUp (c : Char) : Bool := 'A' ≤ c && c ≤ 'Z'

/-- ASCII model of lower-casing a character (`str.lower` / `str.title`). -/
def toLow (c : Char) : Char := if isUp c then Char.ofNat (c.toNat + 32) else c

/-- ASCII model of `str.upper` on one character. -/
def toUp (c : Char) : Char :=
  if 'a' ≤ c && c ≤ 'z' then Char.ofNat (c.toNat - 32) else c

/-- `str.upper`, character-wise. -/
def upperStr (s : String) : String := ⟨s.data.map toUp⟩

/-- Python `s[0]` on a string, as a (possibly empty) one-character string. -/
def strHead (s : String) : String := ⟨s.data.take 1⟩

/-- Python `'sep'.join` with no separator (`''.join`). -/
def joinAll : List String → String
  | [] => ""
  | s :: rest => s ++ joinAll rest

/-- Python `' '.join`. -/
def joinSpace : List String → String
  | [] => ""
  | [s] => s
  | s :: rest => s ++ " " ++ joinSpace rest

/-- Python `initial.replace('.', '')`: remove every period. -/
def stripDots (s : String) : String := ⟨s.data.filter (fun c => c ≠ '.')⟩

/-- Boolean test that `p` is an initial segment of `s`; this is the model of
an anchored `regex.match` against a literal alternative. -/
def begins : List Char → List Char → Bool
  | [], _ => true
  | _ :: _, [] => false
  | p :: ps, c :: cs => p == c && begins ps cs

/-- String-level version of `begins`. -/
def strBegins (p s : String) : Bool := begins p.data s.data

/-- Boolean substring test (used only to state hypotheses about inputs). -/
def occurs (p : List Char) : List Char → Bool
  | [] => p.isEmpty
  | c :: cs => begins p (c :: cs) || occurs p cs

/-! ## Vocabularies from `name_parser.py` -/

/-- `STOP_WORDS` from `name_parser.py` line 13. -/
def STOP_WORDS : List String :=
  ["Association", "Institute", "Director", "Department", "Faculty", "Student",
   "Research", "Laboratory", "Panel", "Group", "Inc", "University",
   "Organization", "Foundation", "Office", "Medical", "Health", "System",
   "Council", "Fund", "Club", "USDA", "Network", "Philanthropy", "Center",
   "Librarian", "Clinic", "Government", "Community", "Practitioners",
   "Services", "Academic", "Repository", "Students", "Members", "School"]

/-- The alternatives of the `ACRONYMS` regex `MPH|DO|MD|FACP|MS|III|DNP|LCSW|MPP|EPFL`. -/
def ACRONYMS : List String :=
  ["MPH", "DO", "MD", "FACP", "MS", "III", "DNP", "LCSW", "MPP", "EPFL"]

/-- `self.acronyms.match(name)`: the `regex.match` method anchors at the start
only, so it succeeds iff some alternative is a prefix of `name`. -/
def acroMatch (name : List Char) : Bool :=
  ACRONYMS.any (fun a => begins a.data name)

/-- `self.titles.match(tok)` for `TITLES = Professor|Dr\.?|Dean`: again a
prefix match; `Dr\.?` succeeds whenever `Dr` is a prefix. -/
def titles_match (tok : String) : Bool :=
  strBegins "Professor" tok || strBegins "Dr" tok || strBegins "Dean" tok

/-- `self.suffixes.match(tok)` for `SUFFIXES = Jr\.?|III` (prefix match). -/
def suffixes_match (tok : String) : Bool :=
  strBegins "Jr" tok || strBegins "III" tok

/-! ## The `Author` record -/

/-- One parsed author name (`Author` in `name_parser.py`).  `type` and
`last_first` are derived from the grammar alias that produced the author;
the three token lists carry the name parts. -/
structure Author where
  type : String := ""
  last_first : Bool := false
  first_name : List String := []
  initials : List String := []
  last_name : List String := []
deriving DecidableEq, Repr, Inhabited

attribute [ext] Author

/-! ## Post-cleaning (`AuthorParser._post_clean`) -/

/-- Step 3 of the loop body: `initial.replace('.', '')` over the initials. -/
def strip_initials (a : Author) : Author :=
  { a with initials := a.initials.map stripDots }

/-- Step 4 of the loop body: a lone suffix (`Jr`/`Jr.`/`III`) as last name
means the real surname was parsed as the first name. -/
def suffix_fix (a : Author) : Author :=
  match a.last_name with
  | [l] => if suffixes_match l then
             { a with last_name := a.first_name ++ [l], first_name := [] }
           else a
  | _ => a

/-- The corporate-author condition: a stop word among the last- or
first-name tokens (`self.stop_words & set(...)`). -/
def stopHit (a : Author) : Bool :=
  a.last_name.any (fun t => STOP_WORDS.contains t) ||
  a.first_name.any (fun t => STOP_WORDS.contains t)

/-- The loop body of `_post_clean` for a single author.  The Python loop
mutates `authors[i]` only, so `_post_clean` is this function mapped over the
list followed by the final filter. -/
def clean_author (a : Author) : Author :=
  if stopHit a then
    { a with
      first_name := [], initials := [],
      last_name :=
        (a.first_name ++ [joinAll a.initials] ++ a.last_name).filter
          (fun t => t ≠ "") }
  else
    match a.first_name with
    | t :: rest =>
      if titles_match t then
        if rest = [] ∧ a.initials = [] then
          { a with first_name := rest, last_name := [] }
        else suffix_fix (strip_initials { a with first_name := rest })
      else suffix_fix (strip_initials a)
    | [] => suffix_fix (strip_initials a)

/-- `AuthorParser._post_clean`: clean each author, then
`[a for a in authors if a.last_name]`. -/
def post_clean (authors : List Author) : List Author :=
  (authors.map clean_author).filter (fun a => !a.last_name.isEmpty)

/-! ## Pre-cleaning (`AuthorParser._pre_clean`) -/

/-- The characters of the `[.,;:]$` regex. -/
def puncts : List Char := ['.', ',', ';', ':']

/-- `self.punct.search(names)` for the pattern `[.,;:]$`: the `$` anchor
matches at the very end of the string or just before a newline that ends the
string. -/
def punctEnd (s : List Char) : Bool :=
  match s.reverse with
  | [] => false
  | c :: rest =>
    if puncts.contains c then true
    else if c = '\n' then
      match rest with
      | p :: _ => puncts.contains p
      | [] => false
    else false

/-- Maximal blocks of characters with constant `isUp` class, in order.
`findall(r'[\p{Lu}]{4,}')` returns exactly the all-uppercase blocks of
length at least 4. -/
def blocks : List Char → List (List Char)
  | [] => []
  | c :: cs =>
    (c :: cs.takeWhile (fun d => isUp d == isUp c)) ::
      blocks (cs.dropWhile (fun d => isUp d == isUp c))
termination_by s => s.length
decreasing_by
  simp only [List.length_cons]
  exact Nat.lt_succ_of_le ((List.dropWhile_sublist _).length_le)

/-- A block that `findall(r'[\p{Lu}]{4,}')` reports: all uppercase, length ≥ 4. -/
def qualifies (b : List Char) : Bool := b.all isUp && decide (4 ≤ b.length)

/-- The matches of `self.capital_names.findall(names)`, in order. -/
def runsOf (s : List Char) : List (List Char) := (blocks s).filter qualifies

/-- `name.title()` on an all-uppercase run: first letter kept, rest lowered. -/
def titleRun : List Char → List Char
  | [] => []
  | c :: cs => c :: cs.map toLow

/-- Python `str.replace(old, new)`: replace every non-overlapping occurrence
of `old`, scanning left to right. -/
def replaceAll (old new : List Char) : List Char → List Char
  | [] => []
  | c :: cs =>
    if h : (!old.isEmpty && begins old (c :: cs)) = true then
      new ++ replaceAll old new ((c :: cs).drop old.length)
    else
      c :: replaceAll old new cs
termination_by s => s.length
decreasing_by
  · simp only [Bool.and_eq_true, Bool.not_eq_true', List.isEmpty_eq_false_iff_exists_mem]
      at h
    simp only [List.length_drop, List.length_cons]
    have : 1 ≤ old.length := by
      cases old with
      | nil => simp at h
      | cons x xs => simp
    omega
  · simp [Nat.lt_succ_self]

/-- The trailing-punctuation strip (`names[:-1]` when the `[.,;:]$` search
succeeds). -/
def stripTrailing (s : List Char) : List Char :=
  if punctEnd s then s.dropLast else s

/-- `AuthorParser._pre_clean`. -/
def pre_clean (names : List Char) : List Char :=
  (runsOf (stripTrailing names)).foldl
    (fun acc r => if acroMatch r then acc else replaceAll r (titleRun r) acc)
    (stripTrailing names)

/-! ## Parse trees and unpacking (`Author.unpack_tree`, `RemoveAmbiguities`) -/

/-- The `data` attribute of a Lark `Tree` as this code distinguishes it:
either a plain string (grammar alias such as `an_full`, or the `_ambig`
marker), or a `Token(type='RULE', value=...)` for an unaliased rule. -/
inductive NodeData where
  | alias (v : String)
  | ruleTok (v : String)
deriving DecidableEq, Repr

/-- A Lark parse-tree node: an inner `Tree`, a terminal `Token`, or the
`None` placeholder Lark inserts for an absent optional part. -/
inductive PTree where
  | tree (data : NodeData) (children : List PTree)
  | tok (value : String)
  | null

instance : Inhabited PTree := ⟨.null⟩

mutual
/-- `sum(len(t.children) for t in tree.iter_subtrees())`: every `Tree` node
contributes the number of its children. -/
def score : PTree → Nat
  | .tree _ ch => ch.length + scoreList ch
  | _ => 0

def scoreList : List PTree → Nat
  | [] => 0
  | t :: ts => score t + scoreList ts
end

/-- Python `max(options, key=score)`: the first option with maximal score. -/
def pickMax (t : PTree) (ts : List PTree) : PTree :=
  ts.foldl (fun best u => if score u > score best then u else best) t

mutual
/-- `RemoveAmbiguities().transform`: bottom-up, replace each `_ambig` node by
its highest-scoring option. -/
def removeAmbiguities : PTree → PTree
  | .tree d ch =>
    let ch' := removeAmbiguitiesList ch
    match d with
    | .alias v =>
      if v = "_ambig" then
        match ch' with
        | [] => .tree d []
        | c :: cs => pickMax c cs
      else .tree d ch'
    | _ => .tree d ch'
  | t => t

def removeAmbiguitiesList : List PTree → List PTree
  | [] => []
  | t :: ts => removeAmbiguities t :: removeAmbiguitiesList ts
end

/-- Children values collected by `Author.add_name`:
`[t.value for t in tree.children if t]` — `None` children and empty-string
tokens are falsy and skipped. -/
def collectVals (ch : List PTree) : List String :=
  ch.filterMap (fun c =>
    match c with
    | .tok v => if v = "" then none else some v
    | _ => none)

/-- The `Author.name` setter. -/
def Author.setName (a : Author) (v : List String) : Author :=
  if a.last_name ≠ [] then { a with first_name := v }
  else if a.last_first then { a with last_name := v }
  else if a.first_name ≠ [] ∨ a.initials ≠ [] then { a with last_name := v }
  else { a with first_name := v }

/-- `Author.__init__(name_type)`: split the alias on `_`; element 1 is the
name form, a third element marks last-first order. -/
def Author.ofAlias (nameType : String) : Author :=
  let parts := nameType.splitOn "_"
  { type := parts.getD 1 "", last_first := decide (parts.length > 2) }

/-- `Author.add_name`. -/
def Author.add_name (a : Author) (t : PTree) : Author :=
  match t with
  | .tree (.ruleTok v) ch =>
    if v = "author_name" then a.setName (collectVals ch)
    else if v = "initials" then { a with initials := collectVals ch }
    else a
  | _ => a

/-- Apply `f` to the last element of a list (the Python code's `author`
variable always refers to the most recently created author). -/
def updateLast (f : α → α) : List α → List α
  | [] => []
  | [a] => [f a]
  | a :: rest => a :: updateLast f rest

mutual
/-- `tree.iter_subtrees_topdown()`: all `Tree` nodes in pre-order. -/
def subtreesTopdown : PTree → List PTree
  | .tree d ch => .tree d ch :: subtreesTopdownList ch
  | _ => []

/-- List version of `subtreesTopdown`. -/
def subtreesTopdownList : List PTree → List PTree
  | [] => []
  | t :: ts => subtreesTopdown t ++ subtreesTopdownList ts
end

/-- One step of the `unpack_tree` loop: an alias node starts a new `Author`
(and `add_name` on an alias node is a no-op); a rule-token node feeds the
current (last) author, and is skipped while no author exists yet. -/
def unpack_step (acc : List Author) (st : PTree) : List Author :=
  match st with
  | .tree (.alias v) _ =>
    updateLast (fun a => a.add_name st) (acc ++ [Author.ofAlias v])
  | .tree (.ruleTok _) _ =>
    if acc.isEmpty then acc else updateLast (fun a => a.add_name st) acc
  | _ => acc

/-- `Author.unpack_tree`. -/
def unpack_tree (t : PTree) : List Author :=
  (subtreesTopdown t).foldl unpack_step []

/-! ## `AuthorParser.parse_one` and `AuthorParser.parse_many` -/

/-- The `ErrorInfo` dictionary `{'error': str(e)}` built by `parse_one`. -/
structure ErrorInfo where
  error : String
deriving DecidableEq, Repr

/-- An entry of `self.errors` after `parse_many` ran
(`error.update({'index': i})`). -/
structure ErrEntry where
  error : String
  index : Nat
deriving DecidableEq, Repr

/-- Python `str.strip()` (no argument): remove leading and trailing
whitespace. -/
def stripWS (s : List Char) : List Char :=
  ((s.dropWhile Char.isWhitespace).reverse.dropWhile Char.isWhitespace).reverse

/-- The abstract Lark engine: `self.parser.parse` either returns a tree or
raises `UnexpectedCharacters`/`UnexpectedEOF`, whose message `parse_one`
captures as a string. -/
def Engine : Type := List Char → Except String PTree

/-- `AuthorParser.parse_one`.  `pc` is the `pre_clean` constructor flag. -/
def parse_one (eng : Engine) (pc : Bool) (names : String) :
    Option (List Author) × Option ErrorInfo :=
  match eng (stripWS (if pc then pre_clean names.data else names.data)) with
  | .ok t => (some (unpack_tree (removeAmbiguities t)), none)
  | .error e => (none, some ⟨e⟩)

/-- Prepend one yielded batch entry to the rest of the generator's output. -/
def parse_many_step (i : Nat) (l : List Author)
    (res : Except String (List (Nat × List Author) × List ErrEntry)) :
    Except String (List (Nat × List Author) × List ErrEntry) :=
  match res with
  | .ok (out, errs2) => .ok ((i, post_clean l) :: out, errs2)
  | .error e => .error e

/-- The body of `AuthorParser.parse_many` from index `i` on, threading the
mutable `self.errors` list.  A successful parse with an empty author list
would reach `error.update(...)` with `error = None` and raise
`AttributeError`; that branch is modelled by `Except.error`. -/
def parse_many_from (eng : Engine) (pc : Bool) (i : Nat) :
    List String → List ErrEntry →
    Except String (List (Nat × List Author) × List ErrEntry)
  | [], errs => .ok ([], errs)
  | s :: rest, errs =>
    match parse_one eng pc s with
    | (some l, e) =>
      if l.isEmpty then
        match e with
        | some err => parse_many_from eng pc (i + 1) rest (errs ++ [⟨err.error, i⟩])
        | none => .error "AttributeError"
      else
        parse_many_step i l (parse_many_from eng pc (i + 1) rest errs)
    | (none, e) =>
      match e with
      | some err => parse_many_from eng pc (i + 1) rest (errs ++ [⟨err.error, i⟩])
      | none => .error "AttributeError"

/-- `AuthorParser.parse_many`, given the current contents of `self.errors`.
The first component collects the yielded `{i: cleaned authors}` entries; the
second is the final `self.errors`. -/
def parse_many (eng : Engine) (pc : Bool) (inputs : List String)
    (errs : List ErrEntry) :
    Except String (List (Nat × List Author) × List ErrEntry) :=
  parse_many_from eng pc 0 inputs errs

/-! ## `ElementsPersonList` (from `elements_types.py`) -/

/-- The owner/user identity handed to `ElementsPersonList`. -/
structure Owner where
  first_name : String
  last_name : String
  middle_name : Option String := none
deriving DecidableEq, Repr

/-- A flat export mapping `{'first-name': ..., 'surname': ..., 'full': ...}`. -/
structure ExportRec where
  first_name : String
  surname : String
  full : String
deriving DecidableEq, Repr

/-- The `initials` string `check_name_matches` computes for the owner:
`(first_name[0] + middle_name[0]).upper()` when a middle name is present and
truthy, else `first_name[0].upper()`. -/
def ownerInitials (u : Owner) : String :=
  match u.middle_name with
  | some m =>
    if m ≠ "" then upperStr (strHead u.first_name ++ strHead m)
    else upperStr (strHead u.first_name)
  | none => upperStr (strHead u.first_name)

/-- `ElementsPersonList.check_name_matches`.  `self.user['first_name'][0]`
is modelled by `strHead`; the Python code raises `IndexError` when the
owner's first name is empty, so theorems about this function assume it is
non-empty. -/
def check_name_matches (u : Owner) (p : Author) : Bool :=
  if u.last_name = joinSpace p.last_name then
    if !p.first_name.isEmpty then
      u.first_name = joinSpace p.first_name ||
        u.first_name = p.first_name.headD ""
    else
      let initials := ownerInitials u
      if !p.initials.isEmpty then
        initials = joinAll p.initials || strHead initials = p.initials.headD ""
      else false
  else false

/-- `ElementsPersonList.name_to_dict`. -/
def name_to_dict (p : Author) : ExportRec :=
  let surname := joinSpace p.last_name
  let fn := joinSpace p.first_name
  let fn :=
    if fn ≠ "" ∧ p.initials ≠ [] then fn ++ " " ++ joinAll p.initials
    else if p.initials ≠ [] then joinAll p.initials
    else fn
  { first_name := fn, surname := surname,
    full := if fn ≠ "" then fn ++ " " ++ surname else surname }

/-- The record built from the owner's own name in `parse_names`. -/
def ownerRec (u : Owner) : ExportRec :=
  { first_name := u.first_name, surname := u.last_name,
    full := u.first_name ++ " " ++ u.last_name }

/-- The `for person in result:` loop of `parse_names`: thread the
`author_matched` flag and append each formatted author. -/
def parse_names_loop (u : Owner) (st : Bool × List ExportRec) (p : Author) :
    Bool × List ExportRec :=
  let matched := st.1 || (!st.1 && check_name_matches u p)
  (matched, st.2 ++ [name_to_dict p])

/-- `ElementsPersonList.parse_names`.  The Python `match` statement tries
`case None, error if self.user` first (it matches any second component),
then `case result, None if self.user`, then `case result, None`; when no
case matches the initial empty list is returned. -/
def parse_names (eng : Engine) (pc : Bool) (user : Option Owner)
    (name_str : String) : List ExportRec :=
  match parse_one eng pc name_str, user with
  | (none, _), some u => [ownerRec u]
  | (some result, none), some u =>
    let result := post_clean result
    let st := result.foldl (parse_names_loop u) (false, [])
    if !st.1 then st.2 ++ [ownerRec u] else st.2
  | (some result, none), none => (post_clean result).map name_to_dict
  | _, _ => []

/-! ## Helper lemmas -/

/-- Every stop word is a non-empty string. -/
lemma stop_words_ne_empty : ∀ w ∈ STOP_WORDS, w ≠ "" := by decide

/-- `stopHit` as a proposition. -/
lemma stopHit_eq_true_iff (a : Author) :
    stopHit a = true ↔
      (∃ t ∈ a.last_name, t ∈ STOP_WORDS) ∨ (∃ t ∈ a.first_name, t ∈ STOP_WORDS) := by
  simp [stopHit, List.any_eq_true, List.contains_iff_exists_mem_beq, beq_iff_eq]

/-- Members of a post-cleaned list have a non-empty surname. -/
lemma mem_post_clean_last_ne {l : List Author} {a : Author}
    (h : a ∈ post_clean l) : a.last_name ≠ [] := by
  simp only [post_clean, List.mem_filter] at h
  intro hn
  simp [hn] at h

/-- Members of a post-cleaned list are cleaned members of the input. -/
lemma mem_post_clean_elim {l : List Author} {b : Author}
    (h : b ∈ post_clean l) : ∃ a ∈ l, b = clean_author a := by
  simp only [post_clean, List.mem_filter, List.mem_map] at h
  rcases h with ⟨⟨a, ha, rfl⟩, -⟩
  exact ⟨a, ha, rfl⟩

/-! ## Claim C5 -/

/-- Claim C5: every `Author` in the post-cleaned output list has a non-empty
`last_name`; authors whose `last_name` is empty after cleaning are absent
from the returned list. -/
theorem claim5_post_clean_surname_nonempty (l : List Author) (a : Author)
    (h : a ∈ post_clean l) : a.last_name ≠ [] :=
  mem_post_clean_last_ne h

theorem claim5_witness :
    ({ last_name := ["Doe"] } : Author) ∈
        post_clean [{ last_name := ["Doe"] }] ∧
      ({ last_name := ["Doe"] } : Author).last_name ≠ [] :=
  ⟨by decide, claim5_post_clean_surname_nonempty
    [{ last_name := ["Doe"] }] { last_name := ["Doe"] } (by decide)⟩

/-! ## Claim C4 -/

/-- Claim C4: an author with a stop word among its `last_name` or
`first_name` tokens is collapsed to a corporate name: `last_name` becomes
`first_name + joined(initials) + last_name` with empty entries dropped,
`first_name` and `initials` are cleared, no other cleaning step is applied
(the equality shows titles, periods and suffixes are untouched), and the
author is retained by `_post_clean`. -/
theorem claim4_corporate_author (l : List Author) (a : Author) (hmem : a ∈ l)
    (h : (∃ t ∈ a.last_name, t ∈ STOP_WORDS) ∨
         (∃ t ∈ a.first_name, t ∈ STOP_WORDS)) :
    clean_author a =
      { a with
        first_name := [], initials := [],
        last_name :=
          (a.first_name ++ [joinAll a.initials] ++ a.last_name).filter
            (fun t => t ≠ "") } ∧
    clean_author a ∈ post_clean l := by
  have hs : stopHit a = true := (stopHit_eq_true_iff a).mpr h
  have heq : clean_author a =
      { a with
        first_name := [], initials := [],
        last_name :=
          (a.first_name ++ [joinAll a.initials] ++ a.last_name).filter
            (fun t => t ≠ "") } := by
    simp [clean_author, hs]
  refine ⟨heq, ?_⟩
  have hne : (clean_author a).last_name ≠ [] := by
    rw [heq]
    rcases h with ⟨t, ht, hw⟩ | ⟨t, ht, hw⟩
    · refine List.ne_nil_of_mem (a := t) (List.mem_filter.mpr ⟨?_, ?_⟩)
      · simp [ht]
      · simpa using stop_words_ne_empty t hw
    · refine List.ne_nil_of_mem (a := t) (List.mem_filter.mpr ⟨?_, ?_⟩)
      · simp [ht]
      · simpa using stop_words_ne_empty t hw
  simp only [post_clean, List.mem_filter]
  exact ⟨List.mem_map_of_mem clean_author hmem, by
    simpa [List.isEmpty_iff] using hne⟩

/-- A concrete corporate-name author used by the C4 witness. -/
def corpA : Author :=
  { first_name := ["National"], initials := ["J."], last_name := ["Institute"] }

theorem claim4_witness :
    clean_author corpA =
      { corpA with
        first_name := [], initials := [],
        last_name :=
          (corpA.first_name ++ [joinAll corpA.initials] ++
            corpA.last_name).filter (fun t => t ≠ "") } ∧
    clean_author corpA ∈ post_clean [corpA] :=
  claim4_corporate_author [corpA] corpA (by decide)
    (.inl ⟨"Institute", by decide, by decide⟩)

/-! ## Claim C10 -/

/-- Claim C10: a surname-only author (empty `first_name` and empty
`initials`) never matches the owner, even on an exact surname match.  The
owner's first name is assumed non-empty, as the Python code indexes
`user['first_name'][0]` on the initials path. -/
theorem claim10_surname_only_never_matches (u : Owner) (p : Author)
    (hu : u.first_name ≠ "") (h1 : p.first_name = []) (h2 : p.initials = []) :
    check_name_matches u p = false := by
  simp [check_name_matches, h1, h2]

theorem claim10_witness :
    check_name_matches { first_name := "Penny", last_name := "Pompidour" }
      { last_name := ["Pompidour"] } = false :=
  claim10_surname_only_never_matches
    { first_name := "Penny", last_name := "Pompidour" }
    { last_name := ["Pompidour"] } (by decide) rfl rfl

/-! ## Claim C2 -/

/-- A non-empty owner first name yields a non-empty initials string. -/
lemma ownerInitials_ne_empty (u : Owner) (hu : u.first_name ≠ "") :
    ownerInitials u ≠ "" := by
  have hd : u.first_name.data ≠ [] := fun h => hu (String.ext h)
  obtain ⟨c, cs, hcc⟩ : ∃ c cs, u.first_name.data = c :: cs := by
    cases hml : u.first_name.data with
    | nil => exact absurd hml hd
    | cons c cs => exact ⟨c, cs, rfl⟩
  intro h
  rw [String.ext_iff] at h
  simp only [ownerInitials, upperStr, strHead] at h
  rcases hm : u.middle_name with - | m
  · simp [hm, hcc] at h
  · rcases eq_or_ne m "" with rfl | hne
    · simp [hm, hcc] at h
    · simp [hm, hne, hcc] at h

/-- The owner-match rule exactly as claim C2 words it (the spec side of the
refinement). -/
def matches_spec (u : Owner) (p : Author) : Prop :=
  u.last_name = joinSpace p.last_name ∧
  (if p.first_name ≠ [] then
     u.first_name = joinSpace p.first_name ∨ u.first_name = p.first_name.headD ""
   else
     ownerInitials u = joinAll p.initials ∨
       (joinAll p.initials ≠ "" ∧
         strHead (ownerInitials u) = strHead (joinAll p.initials)))

/-- Claim C2: for an owner with a non-empty first name and a cleaned author
whose initials are single letters (which is what the grammar and the
period-stripping step produce), `check_name_matches` holds iff the rule
described by the spec holds. -/
theorem claim2_check_name_matches_spec (u : Owner) (p : Author)
    (hu : u.first_name ≠ "") (hi : ∀ x ∈ p.initials, x.length = 1) :
    check_name_matches u p = true ↔ matches_spec u p := by
  unfold check_name_matches matches_spec
  by_cases hl : u.last_name = joinSpace p.last_name
  · cases hpf : p.first_name with
    | cons f fs => simp [hl, hpf]
    | nil =>
      cases hpi : p.initials with
      | nil =>
        have hoi := ownerInitials_ne_empty u hu
        simp [hl, hpf, hpi, joinAll, hoi]
      | cons x xs =>
        have hx : x.length = 1 := hi x (by simp [hpi])
        obtain ⟨c, hc⟩ : ∃ c, x.data = [c] := by
          cases hdx : x.data with
          | nil => simp [String.length, hdx] at hx
          | cons c cs =>
            cases cs with
            | nil => exact ⟨c, rfl⟩
            | cons d ds => simp [String.length, hdx] at hx
        have hjoin : joinAll (x :: xs) = x ++ joinAll xs := rfl
        have hne : x ++ joinAll xs ≠ "" := by
          intro h
          rw [String.ext_iff] at h
          simp [hc] at h
        have hhead : strHead (x ++ joinAll xs) = x := by
          rw [String.ext_iff]
          simp [strHead, hc]
        simp [hl, hpf, hpi, hjoin, hne, hhead]
  · simp [hl]

/-- Concrete owner and author for the C2 witness. -/
def janeOwner : Owner :=
  { first_name := "Jane", last_name := "Doe", middle_name := some "Kay" }

/-- Concrete initials-only author for the C2 witness. -/
def jkAuthor : Author := { initials := ["J", "K"], last_name := ["Doe"] }

theorem claim2_witness :
    check_name_matches janeOwner jkAuthor = true ↔
      matches_spec janeOwner jkAuthor :=
  claim2_check_name_matches_spec janeOwner jkAuthor (by decide) (by decide)

/-! ## Claim C3 -/

/-- The `for person in result:` loop of `parse_names` computes the match
flag `any check_name_matches` and formats every author, in order. -/
lemma parse_names_loop_spec (u : Owner) (l : List Author) (m : Bool)
    (out : List ExportRec) :
    l.foldl (parse_names_loop u) (m, out) =
      (m || l.any (check_name_matches u), out ++ l.map name_to_dict) := by
  induction l generalizing m out with
  | nil => simp
  | cons p rest ih =>
    have hm : (m || (!m && check_name_matches u p)) =
        (m || check_name_matches u p) := by
      cases m <;> simp
    simp [parse_names_loop, ih, hm, Bool.or_assoc]

/-- Claim C3: with an owner supplied, (a) an unparsable string yields
exactly one record equal to the owner with `full = "first last"`; (b) a
successful parse yields all cleaned authors formatted in order, with the
owner's record appended last iff no cleaned author matches; (c) the
engine's behaviour elsewhere (in particular on the owner's own name) is
irrelevant: the output only depends on the parse of the input string. -/
theorem claim3_parse_names_owner (eng : Engine) (pc : Bool) (u : Owner)
    (s : String) :
    (∀ err, parse_one eng pc s = (none, err) →
      parse_names eng pc (some u) s =
        [{ first_name := u.first_name, surname := u.last_name,
           full := u.first_name ++ " " ++ u.last_name }]) ∧
    (∀ l, parse_one eng pc s = (some l, none) →
      parse_names eng pc (some u) s =
        (post_clean l).map name_to_dict ++
          (if (post_clean l).any (check_name_matches u) then []
           else [ownerRec u])) ∧
    (∀ eng₂ : Engine, parse_one eng pc s = parse_one eng₂ pc s →
      parse_names eng pc (some u) s = parse_names eng₂ pc (some u) s) := by
  refine ⟨?_, ?_, ?_⟩
  · intro err h
    simp [parse_names, h, ownerRec]
  · intro l h
    simp only [parse_names, h, parse_names_loop_spec]
    cases hany : (post_clean l).any (check_name_matches u) <;> simp
  · intro eng₂ h
    simp only [parse_names, h]

/-- An engine that fails on every input (used by several witnesses). -/
def engFail : Engine := fun _ => .error "nope"

/-- An engine returning a minimal one-author tree on every input. -/
def engOne : Engine := fun _ => .ok (.tree (.alias "an_full") [])

/-- Concrete owner for the C3 witness. -/
def heathOwner : Owner := { first_name := "Heath", last_name := "Krandall" }

theorem claim3_witness :
    parse_names engFail false (some heathOwner) "$$$" =
      [{ first_name := "Heath", surname := "Krandall",
         full := "Heath Krandall" }] ∧
    parse_names engOne false (some heathOwner) "x" =
      (post_clean [Author.ofAlias "an_full"]).map name_to_dict ++
        (if (post_clean [Author.ofAlias "an_full"]).any
            (check_name_matches heathOwner) then []
         else [ownerRec heathOwner]) ∧
    parse_names engFail false (some heathOwner) "$$$" =
      parse_names (fun _ => .error "nope") false (some heathOwner) "$$$" := by
  refine ⟨?_, ?_, ?_⟩
  · have h := (claim3_parse_names_owner engFail false heathOwner "$$$").1
      (some ⟨"nope"⟩) rfl
    simpa [heathOwner] using h
  · exact (claim3_parse_names_owner engOne false heathOwner "x").2.1
      [Author.ofAlias "an_full"] rfl
  · exact (claim3_parse_names_owner engFail false heathOwner "$$$").2.2
      (fun _ => .error "nope") rfl

/-! ## Claim C9 -/

/-- Claim C9 counterexample: the claim says no mutable per-instance state
carries over between calls, but `parse_many` appends its failures to
`self.errors`, which persists: running the same one-element batch twice
leaves two accumulated error entries, so the second call's final state
differs from a fresh call's. -/
theorem claim9_counterexample :
    parse_many engFail false ["x"] [⟨"nope", 0⟩] ≠
        parse_many engFail false ["x"] [] ∧
      parse_many engFail false ["x"] [] =
        .ok ([], [⟨"nope", 0⟩]) ∧
      parse_many engFail false ["x"] [⟨"nope", 0⟩] =
        .ok ([], [⟨"nope", 0⟩, ⟨"nope", 0⟩]) := by
  refine ⟨?_, rfl, rfl⟩
  intro h
  have h2 : ([(⟨"nope", 0⟩ : ErrEntry), ⟨"nope", 0⟩] : List ErrEntry) =
      [⟨"nope", 0⟩] := by
    have := h
    rw [show parse_many engFail false ["x"] [⟨"nope", 0⟩] =
        .ok ([], [⟨"nope", 0⟩, ⟨"nope", 0⟩]) from rfl,
      show parse_many engFail false ["x"] [] =
        .ok ([], [⟨"nope", 0⟩]) from rfl] at this
    simpa using this
  simp at h2

/-- Claim C9 (amended): `parse_one` is pure, and the results `parse_many`
yields depend only on the inputs; but the `self.errors` state is carried
across calls: a call started with accumulated errors `st` produces exactly
`st` with its own fresh error entries appended. -/
theorem claim9_amended_errors_accumulate (eng : Engine) (pc : Bool)
    (inputs : List String) (st : List ErrEntry) :
    parse_many eng pc inputs st =
      (parse_many eng pc inputs []).map (fun r => (r.1, st ++ r.2)) := by
  suffices h : ∀ (rest : List String) (i : Nat) (st : List ErrEntry),
      parse_many_from eng pc i rest st =
        (parse_many_from eng pc i rest []).map (fun r => (r.1, st ++ r.2)) from
    h inputs 0 st
  intro rest
  induction rest with
  | nil => intro i st; simp [parse_many_from, Except.map]
  | cons s rest ih =>
    intro i st
    simp only [parse_many_from]
    rcases hp : parse_one eng pc s with ⟨r, e⟩
    rcases r with - | l
    · rcases e with - | err
      · simp [Except.map]
      · show parse_many_from eng pc (i + 1) rest (st ++ [ErrEntry.mk err.error i]) =
          Except.map (fun r => (r.1, st ++ r.2))
            (parse_many_from eng pc (i + 1) rest ([] ++ [ErrEntry.mk err.error i]))
        rw [List.nil_append,
          ih (i + 1) (st ++ [ErrEntry.mk err.error i]),
          ih (i + 1) [ErrEntry.mk err.error i]]
        cases parse_many_from eng pc (i + 1) rest [] with
        | ok p => simp [Except.map]
        | error e2 => simp [Except.map]
    · by_cases hl : l.isEmpty
      · simp only [hl, if_pos]
        rcases e with - | err
        · simp [Except.map]
        · show parse_many_from eng pc (i + 1) rest (st ++ [ErrEntry.mk err.error i]) =
            Except.map (fun r => (r.1, st ++ r.2))
              (parse_many_from eng pc (i + 1) rest ([] ++ [ErrEntry.mk err.error i]))
          rw [List.nil_append,
            ih (i + 1) (st ++ [ErrEntry.mk err.error i]),
            ih (i + 1) [ErrEntry.mk err.error i]]
          cases parse_many_from eng pc (i + 1) rest [] with
          | ok p => simp [Except.map]
          | error e2 => simp [Except.map]
      · simp only [hl, if_neg, Bool.false_eq_true, not_false_iff]
        rw [ih (i + 1) st]
        cases parse_many_from eng pc (i + 1) rest [] with
        | ok p => simp [Except.map, parse_many_step]
        | error e2 => simp [Except.map, parse_many_step]

/-! ## Claim C1 -/

/-- Well-formedness of the abstract Lark engine: every tree it returns
unpacks to a non-empty author list.  This holds for the real grammar, whose
start rule always contains at least one aliased `single_author` node (each
alias creates an `Author`), and rules out the unreachable
`error.update(None)` branch of `parse_many`. -/
def WFEngine (eng : Engine) : Prop :=
  ∀ s t, eng s = .ok t → unpack_tree (removeAmbiguities t) ≠ []

/-- `parse_one` always returns one of the two documented shapes. -/
lemma parse_one_shape (eng : Engine) (pc : Bool) (s : String) :
    (∃ l, parse_one eng pc s = (some l, none)) ∨
      (∃ m, parse_one eng pc s = (none, some ⟨m⟩)) := by
  unfold parse_one
  cases eng (stripWS (if pc then pre_clean s.data else s.data)) with
  | ok t => exact .inl ⟨_, rfl⟩
  | error e => exact .inr ⟨e, rfl⟩

/-- Completion and error-indexing of the batch loop, for a well-formed
engine, starting at any index and error state. -/
lemma parse_many_from_spec (eng : Engine) (pc : Bool) (hwf : WFEngine eng) :
    ∀ (rest : List String) (i : Nat) (st : List ErrEntry),
      ∃ out fresh,
        parse_many_from eng pc i rest st = .ok (out, st ++ fresh) ∧
        ∀ en ∈ fresh, i ≤ en.index ∧ en.index - i < rest.length ∧
          parse_one eng pc (rest.getD (en.index - i) "") =
            (none, some ⟨en.error⟩) := by
  intro rest
  induction rest with
  | nil =>
    intro i st
    exact ⟨[], [], by simp [parse_many_from], by simp⟩
  | cons s rest ih =>
    intro i st
    simp only [parse_many_from]
    rcases hcase : eng (stripWS (if pc then pre_clean s.data else s.data))
      with e | t
    · -- engine fails: parse_one gives (none, some ⟨e⟩)
      have hone : parse_one eng pc s = (none, some ⟨e⟩) := by
        unfold parse_one
        rw [hcase]
      rw [hone]
      obtain ⟨out, fresh, hrec, hprop⟩ := ih (i + 1) (st ++ [ErrEntry.mk e i])
      refine ⟨out, ErrEntry.mk e i :: fresh, ?_, ?_⟩
      · show parse_many_from eng pc (i + 1) rest (st ++ [ErrEntry.mk e i]) =
          Except.ok (out, st ++ (ErrEntry.mk e i :: fresh))
        rw [hrec]
        simp
      · intro en hen
        rcases List.mem_cons.mp hen with rfl | hen2
        · exact ⟨le_refl _, by simp, by simpa using hone⟩
        · obtain ⟨h1, h2, h3⟩ := hprop en hen2
          refine ⟨by omega, by simp; omega, ?_⟩
          have hidx : (s :: rest).getD (en.index - i) "" =
              rest.getD (en.index - (i + 1)) "" := by
            have hsub : en.index - i = (en.index - (i + 1)) + 1 := by omega
            rw [hsub]
            rfl
          rw [hidx]
          exact h3
    · -- engine succeeds: parse_one gives (some l, none) with l non-empty
      have hone : parse_one eng pc s =
          (some (unpack_tree (removeAmbiguities t)), none) := by
        unfold parse_one
        rw [hcase]
      have hne : unpack_tree (removeAmbiguities t) ≠ [] := hwf _ _ hcase
      have hne2 : (unpack_tree (removeAmbiguities t)).isEmpty = false := by
        simpa [List.isEmpty_iff] using hne
      rw [hone]
      obtain ⟨out, fresh, hrec, hprop⟩ := ih (i + 1) st
      refine ⟨(i, post_clean (unpack_tree (removeAmbiguities t))) :: out,
        fresh, ?_, ?_⟩
      · show (if (unpack_tree (removeAmbiguities t)).isEmpty = true then
              Except.error "AttributeError"
            else
              parse_many_step i (unpack_tree (removeAmbiguities t))
                (parse_many_from eng pc (i + 1) rest st)) =
            Except.ok
              ((i, post_clean (unpack_tree (removeAmbiguities t))) :: out,
                st ++ fresh)
        rw [hne2, hrec]
        simp [parse_many_step]
      · intro en hen
        obtain ⟨h1, h2, h3⟩ := hprop en hen
        refine ⟨by omega, by simp; omega, ?_⟩
        have hidx : (s :: rest).getD (en.index - i) "" =
            rest.getD (en.index - (i + 1)) "" := by
          have hsub : en.index - i = (en.index - (i + 1)) + 1 := by omega
          rw [hsub]
          rfl
        rw [hidx]
        exact h3

/-- Claim C1: `parse_one` returns either `(authors, None)` or
`(None, ErrorInfo)` carrying the engine's raw error message — never an
unhandled fault — and for a well-formed engine `parse_many` completes,
recording for each failing input an `ErrorInfo` that carries the index of
that input in the original list. -/
theorem claim1_parse_result_shape (eng : Engine) (pc : Bool)
    (hwf : WFEngine eng) :
    (∀ s : String,
      (∃ l, parse_one eng pc s = (some l, none)) ∨
        (∃ m, parse_one eng pc s = (none, some ⟨m⟩))) ∧
    ∀ inputs : List String, ∃ out errs,
      parse_many eng pc inputs [] = .ok (out, errs) ∧
      ∀ en ∈ errs, en.index < inputs.length ∧
        parse_one eng pc (inputs.getD en.index "") =
          (none, some ⟨en.error⟩) := by
  refine ⟨fun s => parse_one_shape eng pc s, fun inputs => ?_⟩
  obtain ⟨out, fresh, hrec, hprop⟩ :=
    parse_many_from_spec eng pc hwf inputs 0 []
  refine ⟨out, fresh, by simpa using hrec, ?_⟩
  intro en hen
  obtain ⟨-, h2, h3⟩ := hprop en hen
  exact ⟨by simpa using h2, by simpa using h3⟩

theorem claim1_witness :
    ∃ out errs,
      parse_many engFail false ["Ab?"] [] = .ok (out, errs) ∧
      ∀ en ∈ errs, en.index < (["Ab?"] : List String).length ∧
        parse_one engFail false ((["Ab?"] : List String).getD en.index "") =
          (none, some ⟨en.error⟩) :=
  (claim1_parse_result_shape engFail false
    (fun s t h => by simp [engFail] at h)).2 ["Ab?"]

/-! ## Claim C6 -/

/-- Removing periods is idempotent. -/
lemma stripDots_idem (s : String) : stripDots (stripDots s) = stripDots s := by
  simp [stripDots]

/-- Period-stripping a list of initials twice equals doing it once. -/
lemma map_stripDots_idem (L : List String) :
    (L.map stripDots).map stripDots = L.map stripDots := by
  rw [List.map_map]
  exact List.map_congr_left (fun s _ => stripDots_idem s)

/-- `strip_initials` is idempotent. -/
lemma strip_initials_idem (a : Author) :
    strip_initials (strip_initials a) = strip_initials a := by
  show ({ a with initials := (a.initials.map stripDots).map stripDots } : Author)
      = { a with initials := a.initials.map stripDots }
  rw [map_stripDots_idem]

/-- `strip_initials` only touches the initials. -/
lemma stopHit_strip (a : Author) : stopHit (strip_initials a) = stopHit a := rfl

/-- `suffix_fix` either does nothing or merges a lone matching suffix into
the surname. -/
lemma suffix_fix_cases (a : Author) :
    suffix_fix a = a ∨
      ∃ l, a.last_name = [l] ∧ suffixes_match l = true ∧
        suffix_fix a =
          { a with last_name := a.first_name ++ [l], first_name := [] } := by
  unfold suffix_fix
  split
  · rename_i l heq
    by_cases hsm : suffixes_match l = true
    · rw [if_pos hsm]
      exact .inr ⟨l, heq, hsm, rfl⟩
    · rw [if_neg hsm]
      exact .inl rfl
  · exact .inl rfl

/-- Case analysis of `clean_author` on a non-corporate author. -/
lemma clean_author_eq_cases (a : Author) (h : stopHit a = false) :
    (a.first_name = [] ∧ clean_author a = suffix_fix (strip_initials a)) ∨
    (∃ t rest, a.first_name = t :: rest ∧ titles_match t = false ∧
      clean_author a = suffix_fix (strip_initials a)) ∨
    (∃ t, a.first_name = [t] ∧ titles_match t = true ∧ a.initials = [] ∧
      clean_author a = { a with first_name := [], last_name := [] }) ∨
    (∃ t rest, a.first_name = t :: rest ∧ titles_match t = true ∧
      ¬(rest = [] ∧ a.initials = []) ∧
      clean_author a =
        suffix_fix (strip_initials { a with first_name := rest })) := by
  unfold clean_author
  rw [h]
  simp only [Bool.false_eq_true, if_false]
  split
  · rename_i t rest heq
    by_cases ht : titles_match t = true
    · rw [if_pos ht]
      by_cases hcl : rest = [] ∧ a.initials = []
      · rw [if_pos hcl]
        exact .inr (.inr (.inl ⟨t, by rw [heq, hcl.1], ht, hcl.2, by rw [hcl.1]⟩))
      · rw [if_neg hcl]
        exact .inr (.inr (.inr ⟨t, rest, heq, ht, hcl, rfl⟩))
    · rw [if_neg ht]
      exact .inr (.inl ⟨t, rest, heq, by simpa using ht, rfl⟩)
  · rename_i heq
    exact .inl ⟨heq, rfl⟩

/-- Unfolding of `stopHit = false` into its two components. -/
lemma stopHit_false_parts (a : Author) (h : stopHit a = false) :
    a.last_name.any (fun t => STOP_WORDS.contains t) = false ∧
      a.first_name.any (fun t => STOP_WORDS.contains t) = false := by
  simpa [stopHit, Bool.or_eq_false_iff] using h

/-- Core of the idempotence argument: an author that went through the
title-free tail of the cleaning pipeline is a fixed point of
`clean_author`, provided no stop word was present and its cleaned first
name does not start with a title-pattern token. -/
lemma clean_author_fix_core (c : Author) (hstop : stopHit c = false)
    (htitle : (suffix_fix (strip_initials c)).first_name ≠ [] →
      titles_match ((suffix_fix (strip_initials c)).first_name.headD "") =
        false) :
    clean_author (suffix_fix (strip_initials c)) =
      suffix_fix (strip_initials c) := by
  obtain ⟨hstopl, hstopf⟩ := stopHit_false_parts c hstop
  rcases suffix_fix_cases (strip_initials c) with hb | ⟨l, hdl, hsm, hb⟩
  · -- the suffix step did nothing
    rw [hb] at htitle ⊢
    have hstop2 : stopHit (strip_initials c) = false := by
      rw [stopHit_strip]; exact hstop
    rcases clean_author_eq_cases (strip_initials c) hstop2 with
      ⟨hf, hc⟩ | ⟨t, rest, hf, ht, hc⟩ | ⟨t, hf, ht, hi, hc⟩ |
        ⟨t, rest, hf, ht, hnt, hc⟩
    · rw [hc, strip_initials_idem]
      exact hb
    · rw [hc, strip_initials_idem]
      exact hb
    · exfalso
      have h1 := htitle (by rw [hf]; simp)
      rw [hf] at h1
      simp only [List.headD_cons] at h1
      rw [ht] at h1
      simp at h1
    · exfalso
      have h1 := htitle (by rw [hf]; simp)
      rw [hf] at h1
      simp only [List.headD_cons] at h1
      rw [ht] at h1
      simp at h1
  · -- the suffix step merged a lone suffix token into the surname
    rw [hb]
    have hcl : c.last_name = [l] := hdl
    have hbfirst :
        ({ strip_initials c with
            last_name := (strip_initials c).first_name ++ [l],
            first_name := [] } : Author).first_name = [] := rfl
    have hstop_b : stopHit
        { strip_initials c with
          last_name := (strip_initials c).first_name ++ [l],
          first_name := [] } = false := by
      simp only [stopHit, List.any_append, Bool.or_eq_false_iff]
      refine ⟨⟨?_, ?_⟩, rfl⟩
      · exact hstopf
      · have := hstopl
        rw [hcl] at this
        simpa using this
    rcases clean_author_eq_cases _ hstop_b with
      ⟨-, hc⟩ | ⟨t, rest, hf, -, -⟩ | ⟨t, hf, -, -, -⟩ | ⟨t, rest, hf, -, -, -⟩
    · rw [hc]
      have hsb : strip_initials
          { strip_initials c with
            last_name := (strip_initials c).first_name ++ [l],
            first_name := [] } =
          { strip_initials c with
            last_name := (strip_initials c).first_name ++ [l],
            first_name := [] } := by
        show ({ strip_initials c with
            last_name := (strip_initials c).first_name ++ [l],
            first_name := [],
            initials := (c.initials.map stripDots).map stripDots } : Author) = _
        rw [map_stripDots_idem]
        rfl
      rw [hsb]
      rcases suffix_fix_cases
        { strip_initials c with
          last_name := (strip_initials c).first_name ++ [l],
          first_name := [] } with h2 | ⟨l2, hdl2, -, h2⟩
      · exact h2
      · rw [h2, hbfirst, List.nil_append, ← hdl2]
    · rw [hbfirst] at hf
      exact absurd hf (by simp)
    · rw [hbfirst] at hf
      exact absurd hf (by simp)
    · rw [hbfirst] at hf
      exact absurd hf (by simp)

/-- The corporate branch of `clean_author`, as an equation. -/
lemma clean_author_of_stopHit {x : Author} (hx : stopHit x = true) :
    clean_author x =
      { x with
        first_name := [], initials := [],
        last_name :=
          (x.first_name ++ [joinAll x.initials] ++ x.last_name).filter
            (fun t => t ≠ "") } := by
  simp [clean_author, hx]

/-- A corporate author is a fixed point of a second cleaning pass. -/
lemma clean_author_corporate_fix (a : Author) (hs : stopHit a = true) :
    clean_author (clean_author a) = clean_author a := by
  have heq := clean_author_of_stopHit hs
  have hbf : (clean_author a).first_name = [] := by rw [heq]
  have hbi : (clean_author a).initials = [] := by rw [heq]
  have hlmem : ∀ x ∈ (clean_author a).last_name, x ≠ "" := by
    intro x hx
    rw [heq] at hx
    simpa using (List.mem_filter.mp hx).2
  have hs2 : stopHit (clean_author a) = true := by
    rw [stopHit_eq_true_iff]
    left
    rcases (stopHit_eq_true_iff a).mp hs with ⟨t, ht, hmem⟩ | ⟨t, ht, hmem⟩
    · refine ⟨t, ?_, hmem⟩
      rw [heq]
      exact List.mem_filter.mpr
        ⟨by simp [ht], by simpa using stop_words_ne_empty t hmem⟩
    · refine ⟨t, ?_, hmem⟩
      rw [heq]
      exact List.mem_filter.mpr
        ⟨by simp [ht], by simpa using stop_words_ne_empty t hmem⟩
  rw [clean_author_of_stopHit hs2]
  apply Author.ext
  · rfl
  · rfl
  · exact hbf.symm
  · exact hbi.symm
  · rw [hbf, hbi]
    show (((joinAll []) :: (clean_author a).last_name).filter
      (fun t => t ≠ "")) = (clean_author a).last_name
    rw [List.filter_cons]
    simp only [joinAll]
    rw [if_neg (by simp)]
    apply List.filter_eq_self.mpr
    intro x hx
    simpa using hlmem x hx

/-- Any retained output of `clean_author` whose first name does not start
with a title-pattern token is a fixed point of `clean_author`. -/
lemma clean_author_fixpoint (a : Author)
    (hlast : (clean_author a).last_name ≠ [])
    (htitle : (clean_author a).first_name ≠ [] →
      titles_match ((clean_author a).first_name.headD "") = false) :
    clean_author (clean_author a) = clean_author a := by
  by_cases hs : stopHit a = true
  · exact clean_author_corporate_fix a hs
  · have hs0 : stopHit a = false := by simpa using hs
    rcases clean_author_eq_cases a hs0 with
      ⟨hf, hc⟩ | ⟨t, rest, hf, ht, hc⟩ | ⟨t, hf, ht, hi, hc⟩ |
        ⟨t, rest, hf, ht, hnt, hc⟩
    · rw [hc] at htitle ⊢
      exact clean_author_fix_core a hs0 htitle
    · rw [hc] at htitle ⊢
      exact clean_author_fix_core a hs0 htitle
    · exfalso
      rw [hc] at hlast
      simp at hlast
    · rw [hc] at htitle ⊢
      refine clean_author_fix_core { a with first_name := rest } ?_ htitle
      have hp := stopHit_false_parts a hs0
      have h2 := hp.2
      rw [hf] at h2
      simp only [List.any_cons, Bool.or_eq_false_iff] at h2
      simp only [stopHit, Bool.or_eq_false_iff]
      exact ⟨hp.1, h2.2⟩

/-- A concrete author showing post-clean is not idempotent: the leading
`Dr` survives the first pass (only one title token is popped per pass) and
the second pass pops it and drops the author. -/
def drAuthor : Author := { first_name := ["Dr", "Dr"], last_name := ["Smith"] }

/-- Claim C6 counterexample: `_post_clean` applied twice differs from
`_post_clean` applied once on `[Author(first_name=['Dr','Dr'],
last_name=['Smith'])]` — the once-cleaned list still carries a leading
title token, which the second pass strips, emptying and dropping the
author. -/
theorem claim6_counterexample :
    post_clean (post_clean [drAuthor]) ≠ post_clean [drAuthor] ∧
      post_clean [drAuthor] =
        [{ first_name := ["Dr"], last_name := ["Smith"] }] ∧
      post_clean (post_clean [drAuthor]) = [] := by
  refine ⟨?_, by decide, by decide⟩
  decide

/-- Claim C6 (amended): post-clean is idempotent on author lists whose
once-cleaned output contains no author whose (non-empty) first name starts
with a title-pattern token; the counterexample shows the restriction is
needed, since title stripping removes only one token per pass. -/
theorem claim6_amended_post_clean_idem (l : List Author)
    (h : ∀ b ∈ post_clean l, b.first_name ≠ [] →
      titles_match (b.first_name.headD "") = false) :
    post_clean (post_clean l) = post_clean l := by
  have hfix : ∀ b ∈ post_clean l, clean_author b = b := by
    intro b hb
    obtain ⟨a2, ha2, rfl⟩ := mem_post_clean_elim hb
    exact clean_author_fixpoint a2 (mem_post_clean_last_ne hb) (h _ hb)
  show ((post_clean l).map clean_author).filter (fun a => !a.last_name.isEmpty)
      = post_clean l
  rw [List.map_congr_left hfix, List.map_id']
  apply List.filter_eq_self.mpr
  intro b hb
  simpa [List.isEmpty_iff] using mem_post_clean_last_ne hb

/-- A concrete ordinary author used by the C6 witness. -/
def johnAuthor : Author :=
  { first_name := ["John"], initials := ["Q."], last_name := ["Public"] }

theorem claim6_witness :
    post_clean (post_clean [johnAuthor]) = post_clean [johnAuthor] :=
  claim6_amended_post_clean_idem [johnAuthor] (by decide)

/-! ## Claim C7 -/

/-- The title vocabulary exactly as claim C7 words it. -/
def titlesExact : List String := ["Professor", "Dr", "Dr.", "Dean"]

/-- The author whose first name token defeats claim C7's exact-vocabulary
reading: `Drew` is not in the vocabulary, yet `regex.match` sees the prefix
`Dr` and strips it. -/
def drewAuthor : Author := { first_name := ["Drew"], last_name := ["Barrymore"] }

/-- Claim C7 counterexample: the first token `"Drew"` is outside the claimed
vocabulary `{Professor, Dr, Dr., Dean}`, so by the claim it would be kept;
the code strips it (prefix match), leaving first name and initials empty,
clearing the surname, and dropping the author. -/
theorem claim7_counterexample :
    "Drew" ∉ titlesExact ∧
      (clean_author drewAuthor).first_name = [] ∧
      (clean_author drewAuthor).last_name = [] ∧
      post_clean [drewAuthor] = [] := by
  refine ⟨by decide, by decide, by decide, by decide⟩

/-- Claim C7 (amended): for a non-corporate author with non-empty first
name, the first token is removed iff it begins with `Professor`, `Dr` or
`Dean` (the `TITLES` pattern is a prefix match, so tokens such as `Drew` or
`Deanna` are stripped too); when it is removed and both the remaining first
name and the initials are empty, the surname is cleared and the author is
dropped by `_post_clean`; otherwise the remaining cleaning steps apply
unchanged. -/
theorem claim7_title_prefix_strip (a : Author) (t : String)
    (rest : List String) (hf : a.first_name = t :: rest)
    (hstop : stopHit a = false) :
    ((strBegins "Professor" t || strBegins "Dr" t || strBegins "Dean" t)
        = true →
      ((rest = [] ∧ a.initials = [] →
          clean_author a = { a with first_name := [], last_name := [] } ∧
            post_clean [a] = []) ∧
        (¬(rest = [] ∧ a.initials = []) →
          clean_author a =
            suffix_fix (strip_initials { a with first_name := rest })))) ∧
    ((strBegins "Professor" t || strBegins "Dr" t || strBegins "Dean" t)
        = false →
      clean_author a = suffix_fix (strip_initials a)) := by
  have hun : clean_author a =
      if titles_match t then
        if rest = [] ∧ a.initials = [] then
          { a with first_name := rest, last_name := [] }
        else suffix_fix (strip_initials { a with first_name := rest })
      else suffix_fix (strip_initials a) := by
    unfold clean_author
    rw [hstop]
    simp only [Bool.false_eq_true, if_false]
    split
    · rename_i t2 rest2 heq
      rw [hf] at heq
      obtain ⟨rfl, rfl⟩ : t = t2 ∧ rest = rest2 := by
        injection heq with h1 h2
        exact ⟨h1, h2⟩
      rfl
    · rename_i heq
      rw [hf] at heq
      exact absurd heq (by simp)
  constructor
  · intro ht
    have htm : titles_match t = true := ht
    constructor
    · rintro ⟨hr, hi⟩
      have hc : clean_author a = { a with first_name := [], last_name := [] } := by
        rw [hun, if_pos htm, if_pos ⟨hr, hi⟩, hr]
      refine ⟨hc, ?_⟩
      show ([a].map clean_author).filter (fun x => !x.last_name.isEmpty) = []
      simp [hc]
    · intro hnt
      rw [hun, if_pos htm, if_neg hnt]
  · intro ht
    have htm : titles_match t = false := ht
    rw [hun, if_neg (by simp [htm])]

theorem claim7_witness :
    ((strBegins "Professor" "Drew" || strBegins "Dr" "Drew" ||
        strBegins "Dean" "Drew") = true →
      (([] = ([] : List String) ∧ drewAuthor.initials = [] →
          clean_author drewAuthor =
            { drewAuthor with first_name := [], last_name := [] } ∧
            post_clean [drewAuthor] = []) ∧
        (¬(([] : List String) = [] ∧ drewAuthor.initials = []) →
          clean_author drewAuthor =
            suffix_fix (strip_initials { drewAuthor with first_name := [] })))) ∧
    ((strBegins "Professor" "Drew" || strBegins "Dr" "Drew" ||
        strBegins "Dean" "Drew") = false →
      clean_author drewAuthor = suffix_fix (strip_initials drewAuthor)) :=
  claim7_title_prefix_strip drewAuthor "Drew" [] rfl (by decide)

/-! ## Claim C8: supporting character and list lemmas -/

lemma char_toNat_le_of_le {a b : Char} (h : a ≤ b) : a.toNat ≤ b.toNat := by
  rw [Char.le_def] at h
  exact h

lemma isUp_bounds {c : Char} (h : isUp c = true) :
    65 ≤ c.toNat ∧ c.toNat ≤ 90 := by
  simp only [isUp, Bool.and_eq_true, decide_eq_true_eq] at h
  exact ⟨char_toNat_le_of_le h.1, char_toNat_le_of_le h.2⟩

lemma toNat_ofNat_valid {n : Nat} (h : n < 55296) : (Char.ofNat n).toNat = n := by
  rw [Char.ofNat, dif_pos (Or.inl h)]
  rfl

/-- Lower-casing an ASCII uppercase letter leaves the uppercase class. -/
lemma isUp_toLow {c : Char} (h : isUp c = true) : isUp (toLow c) = false := by
  obtain ⟨h1, h2⟩ := isUp_bounds h
  unfold toLow
  rw [if_pos h]
  have hv : (Char.ofNat (c.toNat + 32)).toNat = c.toNat + 32 :=
    toNat_ofNat_valid (by omega)
  by_contra hx
  rw [Bool.not_eq_false] at hx
  simp only [isUp, Bool.and_eq_true, decide_eq_true_eq] at hx
  have h3 := char_toNat_le_of_le hx.2
  have h90 : ('Z').toNat = 90 := rfl
  rw [hv, h90] at h3
  omega

/-- `begins` is the boolean form of "is an initial segment". -/
lemma begins_iff_take (p : List Char) :
    ∀ s, begins p s = true ↔ s.take p.length = p := by
  induction p with
  | nil => intro s; simp [begins]
  | cons c cs ih =>
    intro s
    cases s with
    | nil => simp [begins]
    | cons d ds =>
      simp only [begins, Bool.and_eq_true, beq_iff_eq, List.length_cons,
        List.take_succ_cons, List.cons.injEq, ih]
      tauto

lemma begins_length_le {p s : List Char} (h : begins p s = true) :
    p.length ≤ s.length := by
  rw [begins_iff_take] at h
  have := congrArg List.length h
  simp only [List.length_take] at this
  omega

lemma begins_self_append (r rest : List Char) :
    begins r (r ++ rest) = true := by
  rw [begins_iff_take, List.take_append_of_le_length (le_refl _),
    List.take_length]

lemma begins_of_begins_append {p x y : List Char}
    (h : begins p (x ++ y) = true) (hle : p.length ≤ x.length) :
    begins p x = true := by
  rw [begins_iff_take] at h ⊢
  rwa [List.take_append_of_le_length hle] at h

lemma occurs_of_begins_drop {p s : List Char} :
    ∀ i, i ≤ s.length → begins p (s.drop i) = true → occurs p s = true := by
  induction s with
  | nil =>
    intro i hi h
    simp only [List.drop_nil] at h
    cases p with
    | nil => simp [occurs]
    | cons c cs => simp [begins] at h
  | cons c cs ih =>
    intro i hi h
    cases i with
    | zero =>
      simp only [List.drop_zero] at h
      simp [occurs, h]
    | succ j =>
      simp only [List.drop_succ_cons] at h
      have := ih j (by simpa using hi) h
      simp [occurs, this]

lemma occurs_false_of_longer {p s : List Char} (h : s.length < p.length) :
    occurs p s = false := by
  induction s with
  | nil =>
    cases p with
    | nil => simp at h
    | cons c cs => simp [occurs]
  | cons c cs ih =>
    simp only [occurs, Bool.or_eq_false_iff]
    constructor
    · by_contra hx
      rw [Bool.not_eq_false] at hx
      have := begins_length_le hx
      omega
    · exact ih (by simp at h ⊢; omega)

/-! ## Claim C8: `replaceAll` behaviour -/

lemma replaceAll_nil (old new : List Char) : replaceAll old new [] = [] := by
  simp [replaceAll]

/-- A match at the head is replaced and scanning continues after it. -/
lemma replaceAll_head_match {r : List Char} (t : List Char) (hr : r ≠ [])
    (rest : List Char) :
    replaceAll r t (r ++ rest) = t ++ replaceAll r t rest := by
  cases r with
  | nil => exact absurd rfl hr
  | cons c cs =>
    rw [List.cons_append, replaceAll]
    rw [dif_pos (by
      simp only [List.isEmpty_cons, Bool.not_false, Bool.true_and]
      rw [← List.cons_append]
      exact begins_self_append (c :: cs) rest)]
    congr 1
    congr 1
    rw [← List.cons_append, List.drop_left]

/-- A piece in which no occurrence of `r` begins is copied unchanged. -/
lemma replaceAll_skip (r t : List Char) :
    ∀ (p rest : List Char),
      (∀ i, i < p.length → begins r (p.drop i ++ rest) = false) →
      replaceAll r t (p ++ rest) = p ++ replaceAll r t rest := by
  intro p
  induction p with
  | nil => intro rest h; simp
  | cons c p2 ih =>
    intro rest h
    rw [List.cons_append, replaceAll]
    rw [dif_neg (by
      have h0 := h 0 (by simp)
      simp only [List.drop_zero, List.cons_append] at h0
      simp [h0])]
    rw [List.cons_append]
    congr 1
    exact ih rest (fun i hi => by
      have := h (i + 1) (by simp; omega)
      simpa using this)

/-! ## Claim C8: where an uppercase run cannot occur -/

/-- No occurrence of an uppercase-headed pattern starts inside an
all-lowercase-class piece. -/
lemma skip_nonupper {r : List Char} (hrne : r ≠ [])
    (hru : r.all isUp = true) (p rest : List Char)
    (hp : p.all (fun c => !isUp c) = true) :
    ∀ i, i < p.length → begins r (p.drop i ++ rest) = false := by
  intro i hi
  obtain ⟨ru, r2, rfl⟩ : ∃ ru r2, r = ru :: r2 := by
    cases r with
    | nil => exact absurd rfl hrne
    | cons ru r2 => exact ⟨ru, r2, rfl⟩
  have hdrop : p.drop i = p[i] :: p.drop (i + 1) := List.drop_eq_getElem_cons hi
  have hd : isUp p[i] = false := by
    have : p[i] ∈ p := List.getElem_mem hi
    simpa using List.all_eq_true.mp hp _ this
  have hru0 : isUp ru = true := by
    simpa using List.all_eq_true.mp hru ru (by simp)
  rw [hdrop, List.cons_append]
  simp only [begins, Bool.and_eq_false_iff]
  left
  simp only [beq_eq_false_iff_ne, ne_eq]
  intro hcon
  rw [hcon] at hru0
  rw [hru0] at hd
  exact absurd hd (by simp)

/-- No occurrence of `r` starts inside an uppercase piece that does not
contain `r`, when the following text starts with a non-uppercase character
(or ends). -/
lemma skip_upper {r b rest : List Char} (hru : r.all isUp = true)
    (hb_up : b.all isUp = true) (hnocc : occurs r b = false)
    (hrest : rest = [] ∨ ∃ d rs, rest = d :: rs ∧ isUp d = false) :
    ∀ i, i < b.length → begins r (b.drop i ++ rest) = false := by
  intro i hi
  by_contra hx
  rw [Bool.not_eq_false] at hx
  have hk : (b.drop i).length = b.length - i := by simp
  rcases le_or_lt r.length (b.drop i).length with hle | hgt
  · have hb2 : begins r (b.drop i) = true := begins_of_begins_append hx hle
    have hocc : occurs r b = true :=
      occurs_of_begins_drop i (le_of_lt hi) hb2
    rw [hocc] at hnocc
    simp at hnocc
  · rw [begins_iff_take] at hx
    have hlen : r.length ≤ (b.drop i).length + rest.length := by
      have hq := congrArg List.length hx
      simp only [List.length_take, List.length_append] at hq
      omega
    rcases hrest with rfl | ⟨d, rs, rfl, hd⟩
    · simp at hlen
      omega
    · have hsplit : r = b.drop i ++ (d :: rs).take (r.length - (b.drop i).length) := by
        conv_lhs => rw [← hx]
        rw [List.take_append_eq_append_take,
          List.take_of_length_le (by omega)]
      obtain ⟨z, hz⟩ : ∃ z,
          (d :: rs).take (r.length - (b.drop i).length) = d :: z := by
        cases hrk : r.length - (b.drop i).length with
        | zero => omega
        | succ m => exact ⟨rs.take m, by simp⟩
      have hdmem : d ∈ r := by
        rw [hsplit, hz]
        simp
      have hdu : isUp d = true := by
        simpa using List.all_eq_true.mp hru d hdmem
      rw [hdu] at hd
      simp at hd

/-- No occurrence of `r` (all uppercase, length at least 2) starts inside a
title-cased piece of length at least 2. -/
lemma skip_titled {r : List Char} (hru : r.all isUp = true)
    (hr2 : 2 ≤ r.length) (b rest : List Char)
    (hb_up : b.all isUp = true) (hb_len : 2 ≤ b.length) :
    ∀ i, i < (titleRun b).length →
      begins r ((titleRun b).drop i ++ rest) = false := by
  have hrne : r ≠ [] := by
    intro h
    rw [h] at hr2
    simp at hr2
  obtain ⟨c, t0, tb2, rfl⟩ : ∃ c t0 tb2, b = c :: t0 :: tb2 := by
    cases b with
    | nil => simp at hb_len
    | cons c tb =>
      cases tb with
      | nil => simp at hb_len
      | cons t0 tb2 => exact ⟨c, t0, tb2, rfl⟩
  have hlow : ((t0 :: tb2).map toLow).all (fun x => !isUp x) = true := by
    rw [List.all_eq_true]
    intro x hx
    obtain ⟨y, hy, rfl⟩ := List.mem_map.mp hx
    have hyu : isUp y = true := by
      simpa using List.all_eq_true.mp hb_up y (List.mem_cons_of_mem c hy)
    simp [isUp_toLow hyu]
  intro i hi
  cases i with
  | succ j =>
    have hdrop : (titleRun (c :: t0 :: tb2)).drop (j + 1) =
        ((t0 :: tb2).map toLow).drop j := by
      simp [titleRun]
    rw [hdrop]
    refine skip_nonupper hrne hru _ rest hlow j ?_
    simp only [titleRun, List.length_cons, List.length_map] at hi ⊢
    omega
  | zero =>
    by_contra hx
    rw [Bool.not_eq_false, List.drop_zero] at hx
    rw [begins_iff_take] at hx
    obtain ⟨m, hm⟩ : ∃ m, r.length = m + 2 := ⟨r.length - 2, by omega⟩
    rw [hm] at hx
    have hshape : ((titleRun (c :: t0 :: tb2)) ++ rest).take (m + 2) =
        c :: toLow t0 :: ((tb2.map toLow ++ rest).take m) := by
      simp [titleRun]
    rw [hshape] at hx
    have hmem : toLow t0 ∈ r := by
      rw [← hx]
      simp
    have ht0 : isUp t0 = true := by
      simpa using List.all_eq_true.mp hb_up t0 (by simp)
    have h1 := List.all_eq_true.mp hru (toLow t0) hmem
    rw [isUp_toLow ht0] at h1
    simp at h1

/-! ## Claim C8: block structure of a string -/

lemma blocks_join : ∀ s : List Char, (blocks s).flatten = s := by
  intro s
  induction s using blocks.induct with
  | case1 => simp [blocks]
  | case2 c cs ih =>
    rw [blocks]
    simp only [List.flatten_cons, ih]
    rw [List.cons_append, List.takeWhile_append_dropWhile]

/-- Every character of a block shares the class of its head. -/
lemma block_class (c : Char) (cs : List Char) :
    ∀ x ∈ c :: cs.takeWhile (fun d => isUp d == isUp c), isUp x = isUp c := by
  intro x hx
  rcases List.mem_cons.mp hx with rfl | hx2
  · rfl
  · have h := List.all_eq_true.mp (List.all_takeWhile
      (p := fun d => isUp d == isUp c) (l := cs)) x hx2
    simpa using h

/-- The head of a non-empty `dropWhile` residue fails the predicate. -/
lemma dropWhile_cons_head_not {α : Type} {p : α → Bool} :
    ∀ {l : List α} {d : α} {ds : List α},
      l.dropWhile p = d :: ds → p d = false := by
  intro l
  induction l with
  | nil => intro d ds h; simp at h
  | cons a l ih =>
    intro d ds h
    rw [List.dropWhile_cons] at h
    split at h
    · exact ih h
    · rename_i hpa
      injection h with h1 h2
      subst h1
      simpa using hpa

/-- The remainder after a block starts with a character of the other class
(if it is non-empty). -/
lemma dropWhile_head_class (c : Char) (cs : List Char) :
    cs.dropWhile (fun d => isUp d == isUp c) = [] ∨
      ∃ d ds, cs.dropWhile (fun d => isUp d == isUp c) = d :: ds ∧
        isUp d ≠ isUp c := by
  cases h : cs.dropWhile (fun d => isUp d == isUp c) with
  | nil => exact .inl rfl
  | cons d ds =>
    refine .inr ⟨d, ds, rfl, ?_⟩
    simpa using dropWhile_cons_head_not h

/-- The per-block conversion state after the runs in `D` have been
processed by the replacement loop: a qualifying, non-acronym block whose
value is among the processed runs has been title-cased. -/
def markRun (D : List (List Char)) (b : List Char) : List Char :=
  if qualifies b && !acroMatch b && decide (b ∈ D) then titleRun b else b

lemma markRun_head (D : List (List Char)) (d : Char) (x : List Char) :
    ∃ z, markRun D (d :: x) = d :: z := by
  unfold markRun
  split
  · exact ⟨x.map toLow, rfl⟩
  · exact ⟨x, rfl⟩

/-- The marked flattening of a non-empty string starts with its first
character. -/
lemma mark_join_cons (D : List (List Char)) (d : Char) (ds : List Char) :
    ∃ z, ((blocks (d :: ds)).map (markRun D)).flatten = d :: z := by
  rw [blocks]
  simp only [List.map_cons, List.flatten_cons]
  obtain ⟨z, hz⟩ := markRun_head D d (ds.takeWhile (fun e => isUp e == isUp d))
  rw [hz]
  exact ⟨z ++ ((blocks (ds.dropWhile (fun e => isUp e == isUp d))).map
    (markRun D)).flatten, rfl⟩

/-! ## Claim C8: one pass of the replacement loop -/

/-- Replacing the run `r` (qualifying, not acronym-prefixed) in the string
whose runs in `D` were already processed title-cases exactly the blocks
equal to `r`, provided no other qualifying block contains `r`. -/
lemma replace_mark_step (r : List Char) (hq : qualifies r = true)
    (hacro : acroMatch r = false) (D : List (List Char)) :
    ∀ s : List Char,
      (∀ b ∈ blocks s, qualifies b = true → b ≠ r → occurs r b = false) →
      replaceAll r (titleRun r) (((blocks s).map (markRun D)).flatten) =
        ((blocks s).map (markRun (D ++ [r]))).flatten := by
  have hru : r.all isUp = true := by
    simp only [qualifies, Bool.and_eq_true] at hq
    exact hq.1
  have hr4 : 4 ≤ r.length := by
    simp only [qualifies, Bool.and_eq_true, decide_eq_true_eq] at hq
    exact hq.2
  have hrne : r ≠ [] := by
    intro h
    rw [h] at hr4
    simp at hr4
  intro s
  induction s using blocks.induct with
  | case1 =>
    intro hsub
    simp [blocks, replaceAll_nil]
  | case2 c cs ih =>
    intro hsub
    rw [blocks]
    simp only [List.map_cons, List.flatten_cons]
    have hsub2 : ∀ b ∈ blocks (cs.dropWhile (fun d => isUp d == isUp c)),
        qualifies b = true → b ≠ r → occurs r b = false := by
      intro b hb
      exact hsub b (by rw [blocks]; exact List.mem_cons_of_mem _ hb)
    have hih := ih hsub2
    have hBmem : (c :: cs.takeWhile (fun d => isUp d == isUp c)) ∈
        blocks (c :: cs) := by
      rw [blocks]
      exact List.mem_cons_self _ _
    have hclass := block_class c cs
    have hrest_shape :
        ((blocks (cs.dropWhile (fun d => isUp d == isUp c))).map
          (markRun D)).flatten = [] ∨
        ∃ d2 rs2, ((blocks (cs.dropWhile (fun d => isUp d == isUp c))).map
            (markRun D)).flatten = d2 :: rs2 ∧ isUp d2 ≠ isUp c := by
      rcases dropWhile_head_class c cs with hnil | ⟨d, ds, hdweq, hdcls⟩
      · left
        rw [hnil]
        simp [blocks]
      · right
        rw [hdweq]
        obtain ⟨z, hz⟩ := mark_join_cons D d ds
        exact ⟨d, z, hz, hdcls⟩
    by_cases hc : isUp c = true
    · -- uppercase block
      have hBup : (c :: cs.takeWhile (fun d => isUp d == isUp c)).all isUp
          = true := by
        rw [List.all_eq_true]
        intro x hx
        rw [hclass x hx, hc]
      have hrest : ((blocks (cs.dropWhile (fun d => isUp d == isUp c))).map
            (markRun D)).flatten = [] ∨
          ∃ d2 rs2, ((blocks (cs.dropWhile (fun d => isUp d == isUp c))).map
              (markRun D)).flatten = d2 :: rs2 ∧ isUp d2 = false := by
        rcases hrest_shape with hnil | ⟨d2, rs2, heq, hne⟩
        · exact .inl hnil
        · refine .inr ⟨d2, rs2, heq, ?_⟩
          rw [hc] at hne
          simpa using hne
      by_cases hmark : (qualifies (c :: cs.takeWhile (fun d => isUp d == isUp c))
          && !acroMatch (c :: cs.takeWhile (fun d => isUp d == isUp c))
          && decide ((c :: cs.takeWhile (fun d => isUp d == isUp c)) ∈ D))
          = true
      · -- already title-cased
        have hq_B : qualifies (c :: cs.takeWhile (fun d => isUp d == isUp c))
            = true := by
          simp only [Bool.and_eq_true] at hmark
          exact hmark.1.1
        have hBlen : 4 ≤ (c :: cs.takeWhile (fun d => isUp d == isUp c)).length := by
          simp only [qualifies, Bool.and_eq_true, decide_eq_true_eq] at hq_B
          exact hq_B.2
        have hm1 : markRun D (c :: cs.takeWhile (fun d => isUp d == isUp c)) =
            titleRun (c :: cs.takeWhile (fun d => isUp d == isUp c)) :=
          if_pos hmark
        have hm2 : markRun (D ++ [r]) (c :: cs.takeWhile (fun d => isUp d == isUp c)) =
            titleRun (c :: cs.takeWhile (fun d => isUp d == isUp c)) := by
          refine if_pos ?_
          simp only [Bool.and_eq_true, decide_eq_true_eq] at hmark ⊢
          exact ⟨hmark.1, List.mem_append_left _ hmark.2⟩
        rw [hm1, hm2]
        rw [replaceAll_skip r (titleRun r) _ _
          (skip_titled hru (by omega) _ _ hBup (by omega))]
        rw [hih]
      · -- not yet title-cased at this block
        have hm1 : markRun D (c :: cs.takeWhile (fun d => isUp d == isUp c)) =
            (c :: cs.takeWhile (fun d => isUp d == isUp c)) := if_neg hmark
        rw [hm1]
        by_cases hBr : (c :: cs.takeWhile (fun d => isUp d == isUp c)) = r
        · -- this block is the run being replaced
          have hm2 : markRun (D ++ [r])
              (c :: cs.takeWhile (fun d => isUp d == isUp c)) =
              titleRun (c :: cs.takeWhile (fun d => isUp d == isUp c)) := by
            refine if_pos ?_
            simp only [Bool.and_eq_true, decide_eq_true_eq]
            refine ⟨⟨by rw [hBr]; exact hq, by rw [hBr]; simp [hacro]⟩, ?_⟩
            rw [hBr]
            exact List.mem_append_right _ (by simp)
          rw [hm2, hBr]
          rw [replaceAll_head_match (titleRun r) hrne]
          rw [hih]
        · -- a different uppercase block: no occurrence of r starts in it
          have hocc : occurs r (c :: cs.takeWhile (fun d => isUp d == isUp c))
              = false := by
            by_cases hqB : qualifies (c :: cs.takeWhile (fun d => isUp d == isUp c))
                = true
            · exact hsub _ hBmem hqB hBr
            · have hlt : (c :: cs.takeWhile (fun d => isUp d == isUp c)).length
                  < 4 := by
                simp only [qualifies, Bool.and_eq_true, decide_eq_true_eq,
                  not_and, hBup, forall_const] at hqB
                omega
              exact occurs_false_of_longer (by omega)
          have hm2 : markRun (D ++ [r])
              (c :: cs.takeWhile (fun d => isUp d == isUp c)) =
              (c :: cs.takeWhile (fun d => isUp d == isUp c)) := by
            refine if_neg ?_
            intro hx
            apply hmark
            simp only [Bool.and_eq_true, decide_eq_true_eq] at hx ⊢
            refine ⟨hx.1, ?_⟩
            rcases List.mem_append.mp hx.2 with h1 | h1
            · exact h1
            · exact absurd (by simpa using h1) hBr
          rw [hm2]
          rw [replaceAll_skip r (titleRun r) _ _
            (skip_upper hru hBup hocc hrest)]
          rw [hih]
    · -- lowercase-class block: copied unchanged
      have hcf : isUp c = false := by simpa using hc
      have hBlow : (c :: cs.takeWhile (fun d => isUp d == isUp c)).all
          (fun x => !isUp x) = true := by
        rw [List.all_eq_true]
        intro x hx
        rw [Bool.not_eq_true']
        rw [hclass x hx, hcf]
      have hqB : qualifies (c :: cs.takeWhile (fun d => isUp d == isUp c))
          = false := by
        simp only [qualifies, Bool.and_eq_false_iff]
        left
        simp only [List.all_cons, Bool.and_eq_false_iff]
        left
        exact hcf
      have hm1 : markRun D (c :: cs.takeWhile (fun d => isUp d == isUp c)) =
          (c :: cs.takeWhile (fun d => isUp d == isUp c)) := by
        refine if_neg ?_
        simp [hqB]
      have hm2 : markRun (D ++ [r]) (c :: cs.takeWhile (fun d => isUp d == isUp c)) =
          (c :: cs.takeWhile (fun d => isUp d == isUp c)) := by
        refine if_neg ?_
        simp [hqB]
      rw [hm1, hm2]
      rw [replaceAll_skip r (titleRun r) _ _
        (skip_nonupper hrne hru _ _ hBlow)]
      rw [hih]

/-! ## Claim C8: the whole loop -/

lemma markRun_nil (b : List Char) : markRun [] b = b := by
  simp [markRun]

/-- Processing an acronym-prefixed run changes no block. -/
lemma markRun_append_acro {r : List Char} (ha : acroMatch r = true)
    (D : List (List Char)) (b : List Char) :
    markRun (D ++ [r]) b = markRun D b := by
  by_cases hbr : b = r
  · subst hbr
    unfold markRun
    rw [if_neg (by simp [ha]), if_neg (by simp [ha])]
  · unfold markRun
    have hmemeq : decide (b ∈ D ++ [r]) = decide (b ∈ D) := by
      simp [List.mem_append, hbr]
    rw [hmemeq]

/-- The replacement loop over a list of runs, relative to the runs already
processed. -/
lemma foldl_step_mark (s1 : List Char)
    (H : ∀ r1 ∈ runsOf s1, ∀ r2 ∈ runsOf s1, r1 ≠ r2 →
      occurs r1 r2 = false) :
    ∀ (rs : List (List Char)) (D : List (List Char)),
      (∀ r ∈ rs, r ∈ runsOf s1) →
      rs.foldl (fun acc r => if acroMatch r then acc
          else replaceAll r (titleRun r) acc)
        (((blocks s1).map (markRun D)).flatten) =
      ((blocks s1).map (markRun (D ++ rs))).flatten := by
  intro rs
  induction rs with
  | nil => intro D hmem; simp
  | cons r rs ih =>
    intro D hmem
    have hrraw : r ∈ runsOf s1 := hmem r (by simp)
    have hqr : qualifies r = true := (List.mem_filter.mp hrraw).2
    simp only [List.foldl_cons]
    have hstep : (D ++ [r]) ++ rs = D ++ r :: rs := by simp
    by_cases ha : acroMatch r = true
    · rw [if_pos ha]
      have hsame : ((blocks s1).map (markRun D)).flatten =
          ((blocks s1).map (markRun (D ++ [r]))).flatten := by
        rw [List.map_congr_left
          (fun b _ => (markRun_append_acro ha D b).symm)]
      rw [hsame, ih (D ++ [r]) (fun x hx => hmem x (by simp [hx])), hstep]
    · rw [if_neg ha]
      have hsub : ∀ b ∈ blocks s1, qualifies b = true → b ≠ r →
          occurs r b = false := by
        intro b hb hqb hbr
        have hbruns : b ∈ runsOf s1 := List.mem_filter.mpr ⟨hb, hqb⟩
        exact H r hrraw b hbruns (fun he => hbr he.symm)
      rw [replace_mark_step r hqr (by simpa using ha) D s1 hsub,
        ih (D ++ [r]) (fun x hx => hmem x (by simp [hx])), hstep]

/-- The behaviour claim C8 intends, stated as an in-place transformation of
the maximal uppercase blocks: strip one trailing punctuation character (or
a newline immediately preceded by one), then title-case every block of four
or more uppercase letters that does not begin with a known-acronym entry,
leaving everything else in place. -/
def pre_clean_spec (s : List Char) : List Char :=
  ((blocks (stripTrailing s)).map
    (fun b => if qualifies b && !acroMatch b then titleRun b else b)).flatten

/-- Claim C8 (amended): on strings whose qualifying uppercase runs do not
contain one another as proper substrings (distinct runs never overlap under
`str.replace`), `_pre_clean` is exactly the in-place transformation of
`pre_clean_spec`: one trailing punctuation strip, and title-casing of every
maximal run of 4+ uppercase letters except those that merely *begin with*
a known-acronym entry. -/
theorem claim8_pre_clean_spec (s : List Char)
    (H : ∀ r1 ∈ runsOf (stripTrailing s), ∀ r2 ∈ runsOf (stripTrailing s),
      r1 ≠ r2 → occurs r1 r2 = false) :
    pre_clean s = pre_clean_spec s := by
  unfold pre_clean pre_clean_spec
  have hstart : ((blocks (stripTrailing s)).map (markRun [])).flatten =
      stripTrailing s := by
    rw [List.map_congr_left (fun b _ => markRun_nil b), List.map_id',
      blocks_join]
  calc (runsOf (stripTrailing s)).foldl
        (fun acc r => if acroMatch r then acc
          else replaceAll r (titleRun r) acc) (stripTrailing s)
      = (runsOf (stripTrailing s)).foldl
          (fun acc r => if acroMatch r then acc
            else replaceAll r (titleRun r) acc)
          (((blocks (stripTrailing s)).map (markRun [])).flatten) := by
        rw [hstart]
    _ = ((blocks (stripTrailing s)).map
          (markRun ([] ++ runsOf (stripTrailing s)))).flatten :=
        foldl_step_mark (stripTrailing s) H (runsOf (stripTrailing s)) []
          (fun x hx => hx)
    _ = ((blocks (stripTrailing s)).map
        (fun b => if qualifies b && !acroMatch b then titleRun b
          else b)).flatten := ?_
  rw [List.nil_append]
  refine congrArg List.flatten (List.map_congr_left ?_)
  intro b hb
  unfold markRun
  by_cases hqa : (qualifies b && !acroMatch b) = true
  · rw [if_pos, if_pos hqa]
    simp only [Bool.and_eq_true, decide_eq_true_eq] at hqa ⊢
    exact ⟨hqa, List.mem_filter.mpr ⟨hb, hqa.1⟩⟩
  · rw [if_neg, if_neg hqa]
    simp [hqa]

/-! ## Claim C8: counterexample and witness -/

lemma blocks_nil : blocks [] = [] := by
  rw [blocks]

lemma blocks_DOGE : blocks ['D', 'O', 'G', 'E'] = [['D', 'O', 'G', 'E']] := by
  have ht : (['O', 'G', 'E'] : List Char).takeWhile
      (fun d => isUp d == isUp 'D') = ['O', 'G', 'E'] := by decide
  have hd : (['O', 'G', 'E'] : List Char).dropWhile
      (fun d => isUp d == isUp 'D') = [] := by decide
  rw [blocks, ht, hd, blocks_nil]

lemma runsOf_DOGE : runsOf ['D', 'O', 'G', 'E'] = [['D', 'O', 'G', 'E']] := by
  unfold runsOf
  rw [blocks_DOGE]
  decide

lemma stripTrailing_DOGE :
    stripTrailing ['D', 'O', 'G', 'E'] = ['D', 'O', 'G', 'E'] := by
  unfold stripTrailing
  rw [if_neg]
  intro h
  rw [show punctEnd ['D', 'O', 'G', 'E'] = false from by decide] at h
  simp at h

/-- Claim C8 counterexample: `DOGE` is not in the acronym vocabulary, and by
the claim the run would be converted to `Doge`; but `regex.match` sees the
prefix `DO` (a vocabulary entry), so `_pre_clean` leaves `DOGE` unchanged. -/
theorem claim8_counterexample :
    pre_clean "DOGE".data = "DOGE".data ∧ ("DOGE" : String) ∉ ACRONYMS ∧
      titleRun "DOGE".data = "Doge".data := by
  refine ⟨?_, by decide, by decide⟩
  show pre_clean ['D', 'O', 'G', 'E'] = ['D', 'O', 'G', 'E']
  unfold pre_clean
  rw [stripTrailing_DOGE, runsOf_DOGE]
  simp only [List.foldl_cons, List.foldl_nil]
  rw [if_pos (by decide)]

lemma blocks_ABCD : blocks ['A', 'B', 'C', 'D'] = [['A', 'B', 'C', 'D']] := by
  have ht : (['B', 'C', 'D'] : List Char).takeWhile
      (fun d => isUp d == isUp 'A') = ['B', 'C', 'D'] := by decide
  have hd : (['B', 'C', 'D'] : List Char).dropWhile
      (fun d => isUp d == isUp 'A') = [] := by decide
  rw [blocks, ht, hd, blocks_nil]

lemma stripTrailing_ABCD :
    stripTrailing ['A', 'B', 'C', 'D'] = ['A', 'B', 'C', 'D'] := by
  unfold stripTrailing
  rw [if_neg]
  intro h
  rw [show punctEnd ['A', 'B', 'C', 'D'] = false from by decide] at h
  simp at h

theorem claim8_witness :
    pre_clean "ABCD".data = pre_clean_spec "ABCD".data := by
  refine claim8_pre_clean_spec "ABCD".data ?_
  intro r1 h1 r2 h2 hne
  rw [show stripTrailing "ABCD".data = ['A', 'B', 'C', 'D'] from
    stripTrailing_ABCD] at h1 h2
  rw [show runsOf ['A', 'B', 'C', 'D'] = [['A', 'B', 'C', 'D']] from by
    unfold runsOf; rw [blocks_ABCD]; decide] at h1 h2
  simp only [List.mem_singleton] at h1 h2
  subst h1
  subst h2
  exact absurd rfl hne
